import Mathlib

/-!
Verification of the alignment-and-formatting core of `transcribe.py`.

Timestamps (Python floats) are embedded as rationals `ℚ`; the claims under
study only involve ordering, `+`, `-`, `min`, `max` and `/ 2`, for which the
rational embedding is exact on the example inputs.  Speaker identifiers and
text tokens are Lean `String`s; the Unknown sentinel is the literal string
`"Unknown"` exactly as in the Python source.
-/

namespace Transcribe

/-- A diarization turn: one entry of `speaker_segments` in `_format_diarized`
(a dict with keys `start`, `end`, `speaker`).  The Python `end` key is rendered
as `stop` because `end` is a Lean keyword. -/
structure SpeakerSegment where
  start : ℚ
  stop : ℚ
  speaker : String
deriving DecidableEq, Repr

/-- A whisper word with timestamps: one entry of `words` in `_format_diarized`
(a dict with keys `start`, `end`, `word`). -/
structure Word where
  start : ℚ
  stop : ℚ
  word : String
deriving DecidableEq, Repr

/-- A whisper segment (`result["segments"][i]`), as consumed by
`_format_simple` and `_diarize_segment_level`: `start`, `end`, `text`. -/
structure TextUnit where
  start : ℚ
  stop : ℚ
  text : String
deriving DecidableEq, Repr

/-- One output passage: a dict with keys `speaker` and `text`. -/
structure Passage where
  speaker : String
  text : String
deriving DecidableEq, Repr

/-- The temporal overlap computed inside `_find_speaker`:
`max(0.0, min(w_end, ss["end"]) - max(w_start, ss["start"]))`. -/
def overlap (wStart wEnd : ℚ) (ss : SpeakerSegment) : ℚ :=
  max 0 (min wEnd ss.stop - max wStart ss.start)

/-- One iteration of the `for ss in speaker_segments` loop of `_find_speaker`:
the accumulator is the pair `(best, best_overlap)` and is replaced only on a
strict improvement (`overlap > best_overlap`). -/
def findSpeakerStep (wStart wEnd : ℚ) (acc : String × ℚ) (ss : SpeakerSegment) :
    String × ℚ :=
  if overlap wStart wEnd ss > acc.2 then (ss.speaker, overlap wStart wEnd ss) else acc

/-- `_find_speaker(w_start, w_end)`: linear scan over the diarization timeline
starting from `best, best_overlap = "Unknown", 0.0`. -/
def findSpeaker (speakerSegments : List SpeakerSegment) (wStart wEnd : ℚ) : String :=
  (speakerSegments.foldl (findSpeakerStep wStart wEnd) ("Unknown", 0)).1

/-- The maximal overlap any timeline interval attains with the query, clipped
below by the initial accumulator value `v`. -/
def maxOverlapFrom (wStart wEnd : ℚ) (v : ℚ) (segs : List SpeakerSegment) : ℚ :=
  segs.foldl (fun m ss => max m (overlap wStart wEnd ss)) v

/-- The maximal overlap any timeline interval attains with the query
(`0` for the empty timeline). -/
def maxOverlap (wStart wEnd : ℚ) (segs : List SpeakerSegment) : ℚ :=
  maxOverlapFrom wStart wEnd 0 segs

lemma maxOverlapFrom_cons (wStart wEnd v : ℚ) (s : SpeakerSegment)
    (rest : List SpeakerSegment) :
    maxOverlapFrom wStart wEnd v (s :: rest) =
      maxOverlapFrom wStart wEnd (max v (overlap wStart wEnd s)) rest := rfl

lemma le_maxOverlapFrom (wStart wEnd v : ℚ) (segs : List SpeakerSegment) :
    v ≤ maxOverlapFrom wStart wEnd v segs := by
  induction segs generalizing v with
  | nil => simp [maxOverlapFrom]
  | cons s rest ih =>
      rw [maxOverlapFrom_cons]
      exact le_trans (le_max_left _ _) (ih _)

lemma overlap_le_maxOverlapFrom (wStart wEnd v : ℚ) (segs : List SpeakerSegment)
    (ss : SpeakerSegment) :
    ss ∈ segs → overlap wStart wEnd ss ≤ maxOverlapFrom wStart wEnd v segs := by
  induction segs generalizing v with
  | nil => intro h; cases h
  | cons s rest ih =>
      intro h
      rw [maxOverlapFrom_cons]
      cases h with
      | head => exact le_trans (le_max_right _ _) (le_maxOverlapFrom _ _ _ _)
      | tail _ h => exact ih _ h

/-- The second component of the `_find_speaker` fold is the running maximum of
the overlaps. -/
lemma findSpeaker_fold_snd (wStart wEnd : ℚ) (segs : List SpeakerSegment)
    (b : String) (v : ℚ) :
    (segs.foldl (findSpeakerStep wStart wEnd) (b, v)).2 =
      maxOverlapFrom wStart wEnd v segs := by
  induction segs generalizing b v with
  | nil => rfl
  | cons s rest ih =>
      rw [maxOverlapFrom_cons]
      simp only [List.foldl_cons, findSpeakerStep]
      by_cases h : overlap wStart wEnd s > v
      · rw [if_pos h, ih, max_eq_right h.le]
      · rw [if_neg h, ih, max_eq_left (le_of_not_lt h)]

/-- If no interval strictly improves on the initial value `v`, the fold leaves
the accumulator untouched. -/
lemma findSpeaker_fold_of_le (wStart wEnd : ℚ) (segs : List SpeakerSegment)
    (b : String) (v : ℚ)
    (h : ∀ ss ∈ segs, overlap wStart wEnd ss ≤ v) :
    segs.foldl (findSpeakerStep wStart wEnd) (b, v) = (b, v) := by
  induction segs with
  | nil => rfl
  | cons s rest ih =>
      simp only [List.foldl_cons, findSpeakerStep]
      rw [if_neg (not_lt.mpr (h s (List.mem_cons_self s rest)))]
      exact ih fun ss hss => h ss (List.mem_cons_of_mem s hss)

/-- First component of the `_find_speaker` fold when some interval strictly
improves on the initial value: the result is the speaker of the first interval
attaining the running maximum. -/
lemma findSpeaker_fold_fst (wStart wEnd : ℚ) (segs : List SpeakerSegment)
    (b : String) (v : ℚ)
    (h : v < maxOverlapFrom wStart wEnd v segs) :
    ∃ ss,
      segs.find? (fun ss => overlap wStart wEnd ss = maxOverlapFrom wStart wEnd v segs)
        = some ss ∧
      (segs.foldl (findSpeakerStep wStart wEnd) (b, v)).1 = ss.speaker := by
  induction segs generalizing b v with
  | nil => exact absurd h (by simp [maxOverlapFrom])
  | cons s rest ih =>
      rw [maxOverlapFrom_cons] at h ⊢
      simp only [List.foldl_cons, findSpeakerStep]
      by_cases hs : overlap wStart wEnd s > v
      · rw [if_pos hs, max_eq_right hs.le] at *
        by_cases hrest : overlap wStart wEnd s < maxOverlapFrom wStart wEnd (overlap wStart wEnd s) rest
        · obtain ⟨ss, hfind, hfold⟩ := ih s.speaker (overlap wStart wEnd s) hrest
          refine ⟨ss, ?_, hfold⟩
          rw [List.find?_cons_of_neg _ (by simpa using hrest.ne), hfind]
        · have heq : maxOverlapFrom wStart wEnd (overlap wStart wEnd s) rest
              = overlap wStart wEnd s :=
            le_antisymm (not_lt.mp hrest) (le_maxOverlapFrom _ _ _ _)
          refine ⟨s, ?_, ?_⟩
          · rw [List.find?_cons_of_pos _ (by simpa using heq.symm)]
          · rw [findSpeaker_fold_of_le _ _ rest s.speaker (overlap wStart wEnd s)
              (fun ss hss => heq ▸ overlap_le_maxOverlapFrom wStart wEnd _ rest ss hss)]
      · rw [if_neg hs, max_eq_left (le_of_not_lt hs)] at *
        obtain ⟨ss, hfind, hfold⟩ := ih b v h
        refine ⟨ss, ?_, hfold⟩
        have hne : overlap wStart wEnd s ≠ maxOverlapFrom wStart wEnd v rest :=
          fun hc => absurd (hc ▸ le_of_not_lt hs) (not_le.mpr h)
        rw [List.find?_cons_of_neg _ (by simpa using hne), hfind]

lemma maxOverlapFrom_le (wStart wEnd : ℚ) (segs : List SpeakerSegment) (v c : ℚ)
    (hv : v ≤ c) (h : ∀ ss ∈ segs, overlap wStart wEnd ss ≤ c) :
    maxOverlapFrom wStart wEnd v segs ≤ c := by
  induction segs generalizing v with
  | nil => exact hv
  | cons s rest ih =>
      rw [maxOverlapFrom_cons]
      exact ih _ (max_le hv (h s (List.mem_cons_self s rest)))
        fun ss hss => h ss (List.mem_cons_of_mem s hss)

/-- `find?` returns the element at the least index satisfying the predicate. -/
lemma find?_eq_get_of_first {α : Type} (p : α → Bool) :
    ∀ (l : List α) (i : ℕ) (hi : i < l.length),
      (∀ j (hj : j < l.length), j < i → p (l.get ⟨j, hj⟩) = false) →
      p (l.get ⟨i, hi⟩) = true →
      l.find? p = some (l.get ⟨i, hi⟩)
  | [], i, hi, _, _ => absurd hi (by simp)
  | a :: t, 0, _, _, hp => by
      have hp' : p a = true := hp
      simp [List.find?_cons_of_pos _ hp']
  | a :: t, i + 1, hi, hfirst, hp => by
      rw [List.find?_cons_of_neg _
        (by simpa using hfirst 0 (Nat.succ_pos _) (Nat.succ_pos _))]
      exact find?_eq_get_of_first p t i (Nat.lt_of_succ_lt_succ hi)
        (fun j hj hji =>
          by simpa using hfirst (j + 1) (Nat.succ_lt_succ hj) (Nat.succ_lt_succ hji))
        (by simpa using hp)

/-- **C1.** In overlap mode, `_find_speaker` returns the speaker of an interval
with maximal strictly-positive overlap whenever one exists; when no interval
overlaps the query by more than zero it returns the `"Unknown"` sentinel, and
on the empty timeline every query returns `"Unknown"`. -/
theorem claim_C1_overlap_resolver (segs : List SpeakerSegment) (wStart wEnd : ℚ) :
    ((∀ ss ∈ segs, overlap wStart wEnd ss ≤ 0) →
      findSpeaker segs wStart wEnd = "Unknown") ∧
    ((∃ ss ∈ segs, 0 < overlap wStart wEnd ss) →
      ∃ ss ∈ segs, findSpeaker segs wStart wEnd = ss.speaker ∧
        0 < overlap wStart wEnd ss ∧
        ∀ ss' ∈ segs, overlap wStart wEnd ss' ≤ overlap wStart wEnd ss) ∧
    findSpeaker [] wStart wEnd = "Unknown" := by
  refine ⟨?_, ?_, rfl⟩
  · intro h
    unfold findSpeaker
    rw [findSpeaker_fold_of_le _ _ segs _ 0 h]
  · rintro ⟨ss₀, hmem₀, hpos₀⟩
    have hM : 0 < maxOverlapFrom wStart wEnd 0 segs :=
      lt_of_lt_of_le hpos₀ (overlap_le_maxOverlapFrom _ _ _ _ _ hmem₀)
    obtain ⟨ss, hfind, hfold⟩ := findSpeaker_fold_fst wStart wEnd segs "Unknown" 0 hM
    have hmem : ss ∈ segs := List.mem_of_find?_eq_some hfind
    have hss : overlap wStart wEnd ss = maxOverlapFrom wStart wEnd 0 segs := by
      simpa using List.find?_some hfind
    exact ⟨ss, hmem, hfold, hss ▸ hM,
      fun ss' hss' => hss ▸ overlap_le_maxOverlapFrom _ _ _ _ _ hss'⟩

theorem claim_C1_witness :
    findSpeaker [⟨0, 3, "A"⟩] 0 1 = "A" ∧ findSpeaker [] 0 1 = "Unknown" := by
  constructor
  · obtain ⟨ss, hmem, heq, -, -⟩ :=
      (claim_C1_overlap_resolver [⟨0, 3, "A"⟩] 0 1).2.1
        ⟨⟨0, 3, "A"⟩, List.mem_singleton.mpr rfl, by norm_num [overlap, min_def, max_def]⟩
    rw [heq, List.mem_singleton.mp hmem]
  · exact (claim_C1_overlap_resolver [] 0 1).2.2

/-- **C6.** When several intervals achieve the same maximal nonzero overlap
with the query, `_find_speaker` returns the speaker of the earliest such
interval in the timeline's original order. -/
theorem claim_C6_tie_break_first (segs : List SpeakerSegment) (wStart wEnd : ℚ)
    (i : ℕ) (hi : i < segs.length)
    (hmax : ∀ ss ∈ segs,
      overlap wStart wEnd ss ≤ overlap wStart wEnd (segs.get ⟨i, hi⟩))
    (hpos : 0 < overlap wStart wEnd (segs.get ⟨i, hi⟩))
    (hfirst : ∀ j (hj : j < segs.length), j < i →
      overlap wStart wEnd (segs.get ⟨j, hj⟩) ≠
        overlap wStart wEnd (segs.get ⟨i, hi⟩)) :
    findSpeaker segs wStart wEnd = (segs.get ⟨i, hi⟩).speaker := by
  have hMeq : maxOverlapFrom wStart wEnd 0 segs
      = overlap wStart wEnd (segs.get ⟨i, hi⟩) :=
    le_antisymm (maxOverlapFrom_le _ _ _ _ _ hpos.le hmax)
      (overlap_le_maxOverlapFrom _ _ _ _ _ (segs.get_mem i hi))
  obtain ⟨ss, hfind, hfold⟩ :=
    findSpeaker_fold_fst wStart wEnd segs "Unknown" 0 (hMeq ▸ hpos)
  have hfind' : segs.find?
      (fun ss => overlap wStart wEnd ss = maxOverlapFrom wStart wEnd 0 segs)
      = some (segs.get ⟨i, hi⟩) := by
    apply find?_eq_get_of_first
    · intro j hj hji
      simpa [hMeq] using hfirst j hj hji
    · simpa using hMeq.symm
  rw [hfind] at hfind'
  obtain rfl : ss = segs.get ⟨i, hi⟩ := by injection hfind'
  exact hfold

theorem claim_C6_witness :
    findSpeaker [⟨0, 1, "A"⟩, ⟨0, 1, "B"⟩] 0 1 = "A" := by
  have h := claim_C6_tie_break_first [⟨0, 1, "A"⟩, ⟨0, 1, "B"⟩] 0 1 0 (by decide)
    (by
      intro ss hss
      rcases List.mem_cons.mp hss with rfl | hss
      · exact le_refl _
      · rcases List.mem_singleton.mp hss with rfl
        exact le_refl _)
    (by norm_num [overlap, min_def, max_def])
    (by intro j hj hj0; exact absurd hj0 (Nat.not_lt_zero j))
  simpa using h

/-- The inclusive containment test `ss["start"] <= mid <= ss["end"]` of
`_diarize_segment_level`. -/
def containsMid (mid : ℚ) (ss : SpeakerSegment) : Prop :=
  ss.start ≤ mid ∧ mid ≤ ss.stop

instance (mid : ℚ) (ss : SpeakerSegment) : Decidable (containsMid mid ss) :=
  inferInstanceAs (Decidable (_ ∧ _))

/-- The nearest-endpoint distance
`min(abs(mid - ss["start"]), abs(mid - ss["end"]))`. -/
def nearDist (mid : ℚ) (ss : SpeakerSegment) : ℚ :=
  min |mid - ss.start| |mid - ss.stop|

/-- `dist < best_dist` where `best_dist` starts as `float("inf")`; `none`
plays the role of infinity, so any distance beats it. -/
def distLt (d : ℚ) : Option ℚ → Bool
  | none => true
  | some b => decide (d < b)

/-- The inner `for ss in speaker_segments` loop of `_diarize_segment_level`:
inclusive containment of the midpoint short-circuits (`break` after setting
`best`), otherwise the nearest-endpoint distance is minimized with a strict
comparison against the running `best_dist`. -/
def segSpeakerLoop (mid : ℚ) : List SpeakerSegment → String → Option ℚ → String
  | [], best, _ => best
  | ss :: rest, best, bestDist =>
      if containsMid mid ss then ss.speaker
      else if distLt (nearDist mid ss) bestDist then
        segSpeakerLoop mid rest ss.speaker (some (nearDist mid ss))
      else segSpeakerLoop mid rest best bestDist

/-- Speaker resolution for one segment midpoint in `_diarize_segment_level`,
starting from `best, best_dist = "Unknown", float("inf")`. -/
def segSpeaker (speakerSegments : List SpeakerSegment) (mid : ℚ) : String :=
  segSpeakerLoop mid speakerSegments "Unknown" none

lemma segSpeakerLoop_containment (mid : ℚ) :
    ∀ (segs : List SpeakerSegment) (j : ℕ) (hj : j < segs.length)
      (best : String) (bd : Option ℚ),
      containsMid mid (segs.get ⟨j, hj⟩) →
      (∀ k (hk : k < segs.length), k < j → ¬ containsMid mid (segs.get ⟨k, hk⟩)) →
      segSpeakerLoop mid segs best bd = (segs.get ⟨j, hj⟩).speaker
  | [], j, hj, _, _, _, _ => absurd hj (by simp)
  | s :: rest, 0, hj, best, bd, hcont, _ => by
      have hcont' : containsMid mid s := hcont
      simp only [segSpeakerLoop]
      rw [if_pos hcont']
      rfl
  | s :: rest, j + 1, hj, best, bd, hcont, hfirst => by
      have hs : ¬ containsMid mid s := by
        simpa using hfirst 0 (Nat.succ_pos _) (Nat.succ_pos _)
      simp only [segSpeakerLoop]
      rw [if_neg hs]
      have hrec : ∀ b bd', segSpeakerLoop mid rest b bd'
          = ((s :: rest).get ⟨j + 1, hj⟩).speaker := by
        intro b bd'
        have := segSpeakerLoop_containment mid rest j (Nat.lt_of_succ_lt_succ hj) b bd'
          (by simpa using hcont)
          (fun k hk hkj => by
            simpa using hfirst (k + 1) (Nat.succ_lt_succ hk) (Nat.succ_lt_succ hkj))
        simpa using this
      by_cases hd : distLt (nearDist mid s) bd = true
      · rw [if_pos hd]; exact hrec _ _
      · rw [if_neg hd]; exact hrec _ _

lemma segSpeakerLoop_minDist (mid : ℚ) :
    ∀ (segs : List SpeakerSegment) (best : String) (d : ℚ),
      (∀ ss ∈ segs, ¬ containsMid mid ss) →
      (segSpeakerLoop mid segs best (some d) = best ∧
        ∀ ss ∈ segs, d ≤ nearDist mid ss) ∨
      (∃ ss ∈ segs, segSpeakerLoop mid segs best (some d) = ss.speaker ∧
        nearDist mid ss ≤ d ∧ ∀ ss' ∈ segs, nearDist mid ss ≤ nearDist mid ss')
  | [], best, d, _ => Or.inl ⟨rfl, by simp⟩
  | s :: rest, best, d, hnc => by
      have hs : ¬ containsMid mid s := hnc s (List.mem_cons_self s rest)
      have hnc' : ∀ ss ∈ rest, ¬ containsMid mid ss :=
        fun ss h => hnc ss (List.mem_cons_of_mem s h)
      simp only [segSpeakerLoop]
      rw [if_neg hs]
      by_cases hd : nearDist mid s < d
      · rw [if_pos (by simp [distLt, hd])]
        rcases segSpeakerLoop_minDist mid rest s.speaker (nearDist mid s) hnc' with
          ⟨hres, hall⟩ | ⟨ss, hmem, hres, hle, hall⟩
        · refine Or.inr ⟨s, List.mem_cons_self s rest, hres, hd.le, ?_⟩
          intro ss' hss'
          rcases List.mem_cons.mp hss' with rfl | h
          · exact le_refl _
          · exact hall ss' h
        · refine Or.inr ⟨ss, List.mem_cons_of_mem s hmem, hres, le_trans hle hd.le, ?_⟩
          intro ss' hss'
          rcases List.mem_cons.mp hss' with rfl | h
          · exact hle
          · exact hall ss' h
      · rw [if_neg (by simp [distLt, hd])]
        rcases segSpeakerLoop_minDist mid rest best d hnc' with
          ⟨hres, hall⟩ | ⟨ss, hmem, hres, hle, hall⟩
        · refine Or.inl ⟨hres, ?_⟩
          intro ss' hss'
          rcases List.mem_cons.mp hss' with rfl | h
          · exact le_of_not_lt hd
          · exact hall ss' h
        · refine Or.inr ⟨ss, List.mem_cons_of_mem s hmem, hres, hle, ?_⟩
          intro ss' hss'
          rcases List.mem_cons.mp hss' with rfl | h
          · exact le_trans hle (le_of_not_lt hd)
          · exact hall ss' h

lemma segSpeakerLoop_mem (mid : ℚ) :
    ∀ (segs : List SpeakerSegment) (best : String) (bd : Option ℚ),
      (∃ ss ∈ segs, segSpeakerLoop mid segs best bd = ss.speaker) ∨
      segSpeakerLoop mid segs best bd = best
  | [], _, _ => Or.inr rfl
  | s :: rest, best, bd => by
      simp only [segSpeakerLoop]
      by_cases hc : containsMid mid s
      · rw [if_pos hc]
        exact Or.inl ⟨s, List.mem_cons_self s rest, rfl⟩
      · rw [if_neg hc]
        by_cases hd : distLt (nearDist mid s) bd = true
        · rw [if_pos hd]
          rcases segSpeakerLoop_mem mid rest s.speaker (some (nearDist mid s)) with
            ⟨ss, hm, hr⟩ | hr
          · exact Or.inl ⟨ss, List.mem_cons_of_mem s hm, hr⟩
          · exact Or.inl ⟨s, List.mem_cons_self s rest, hr⟩
        · rw [if_neg hd]
          rcases segSpeakerLoop_mem mid rest best bd with ⟨ss, hm, hr⟩ | hr
          · exact Or.inl ⟨ss, List.mem_cons_of_mem s hm, hr⟩
          · exact Or.inr hr

/-- **C7.** In midpoint mode, for a non-empty timeline: a midpoint contained
inclusively in some interval resolves to the first containing interval's
speaker (the loop breaks there); with no containing interval the resolver
returns the speaker of an interval minimizing the nearest-endpoint distance;
and in every case the result is the speaker of some timeline interval, never
the Unknown fallback. -/
theorem claim_C7_midpoint_resolver (segs : List SpeakerSegment) (mid : ℚ) :
    ((∀ (j : ℕ) (hj : j < segs.length),
        containsMid mid (segs.get ⟨j, hj⟩) →
        (∀ k (hk : k < segs.length), k < j → ¬ containsMid mid (segs.get ⟨k, hk⟩)) →
        segSpeaker segs mid = (segs.get ⟨j, hj⟩).speaker)) ∧
    (segs ≠ [] → (∀ ss ∈ segs, ¬ containsMid mid ss) →
      ∃ ss ∈ segs, segSpeaker segs mid = ss.speaker ∧
        ∀ ss' ∈ segs, nearDist mid ss ≤ nearDist mid ss') ∧
    (segs ≠ [] → ∃ ss ∈ segs, segSpeaker segs mid = ss.speaker) := by
  refine ⟨?_, ?_, ?_⟩
  · intro j hj hcont hfirst
    exact segSpeakerLoop_containment mid segs j hj _ _ hcont hfirst
  · intro hne hnc
    cases segs with
    | nil => exact absurd rfl hne
    | cons s rest =>
        have hs : ¬ containsMid mid s := hnc s (List.mem_cons_self s rest)
        unfold segSpeaker
        simp only [segSpeakerLoop]
        rw [if_neg hs, if_pos (by simp [distLt])]
        rcases segSpeakerLoop_minDist mid rest s.speaker (nearDist mid s)
            (fun ss h => hnc ss (List.mem_cons_of_mem s h)) with
          ⟨hres, hall⟩ | ⟨ss, hmem, hres, hle, hall⟩
        · refine ⟨s, List.mem_cons_self s rest, hres, ?_⟩
          intro ss' hss'
          rcases List.mem_cons.mp hss' with rfl | h
          · exact le_refl _
          · exact hall ss' h
        · refine ⟨ss, List.mem_cons_of_mem s hmem, hres, ?_⟩
          intro ss' hss'
          rcases List.mem_cons.mp hss' with rfl | h
          · exact hle
          · exact hall ss' h
  · intro hne
    cases segs with
    | nil => exact absurd rfl hne
    | cons s rest =>
        unfold segSpeaker
        simp only [segSpeakerLoop]
        by_cases hc : containsMid mid s
        · rw [if_pos hc]
          exact ⟨s, List.mem_cons_self s rest, rfl⟩
        · rw [if_neg hc, if_pos (by simp [distLt])]
          rcases segSpeakerLoop_mem mid rest s.speaker (some (nearDist mid s)) with
            ⟨ss, hm, hr⟩ | hr
          · exact ⟨ss, List.mem_cons_of_mem s hm, hr⟩
          · exact ⟨s, List.mem_cons_self s rest, hr⟩

theorem claim_C7_witness :
    segSpeaker [⟨0, 1, "A"⟩, ⟨2, 3, "B"⟩] (1 / 2) = "A" := by
  have h := (claim_C7_midpoint_resolver [⟨0, 1, "A"⟩, ⟨2, 3, "B"⟩] (1 / 2)).1 0
    (by decide) (by constructor <;> norm_num)
    (fun k hk hk0 => absurd hk0 (Nat.not_lt_zero k))
  simpa using h

/-- Python's `str.strip()` as used on segment texts and word tokens:
drop leading and trailing whitespace. -/
def pyStrip (s : String) : String :=
  String.mk (((s.data.dropWhile Char.isWhitespace).reverse.dropWhile
    Char.isWhitespace).reverse)

/-- One iteration of the `for seg in result.get("segments", [])` loop of
`_format_simple`.  The state is the triple `(lines, paragraph, last_end)`:
an empty trimmed text is skipped; a pause of strictly more than `2.0` seconds
since the previous kept unit's end flushes the buffer (when non-empty) as one
space-joined line followed by a blank line. -/
def formatSimpleStep (st : List String × List String × ℚ) (seg : TextUnit) :
    List String × List String × ℚ :=
  if pyStrip seg.text = "" then st
  else if st.2.1 ≠ [] ∧ seg.start - st.2.2 > 2 then
    (st.1 ++ [" ".intercalate st.2.1, ""], [pyStrip seg.text], seg.stop)
  else
    (st.1, st.2.1 ++ [pyStrip seg.text], seg.stop)

/-- `_format_simple`: fold from `lines = ["# Transcript", ""]`,
`paragraph = []`, `last_end = 0.0`, flush the final buffer, and join the lines
with newlines. -/
def formatSimple (segs : List TextUnit) : String :=
  let st := segs.foldl formatSimpleStep (["# Transcript", ""], [], 0)
  let lines := if st.2.1 ≠ [] then st.1 ++ [" ".intercalate st.2.1, ""] else st.1
  "\n".intercalate lines

/-- The same fold as `formatSimpleStep`, but keeping each completed paragraph
as its list of unit texts instead of a joined line, to reason about grouping. -/
def simpleParagraphsStep (st : List (List String) × List String × ℚ) (seg : TextUnit) :
    List (List String) × List String × ℚ :=
  if pyStrip seg.text = "" then st
  else if st.2.1 ≠ [] ∧ seg.start - st.2.2 > 2 then
    (st.1 ++ [st.2.1], [pyStrip seg.text], seg.stop)
  else
    (st.1, st.2.1 ++ [pyStrip seg.text], seg.stop)

/-- Flush of the trailing paragraph buffer. -/
def finalizeParas (st : List (List String) × List String × ℚ) : List (List String) :=
  if st.2.1 ≠ [] then st.1 ++ [st.2.1] else st.1

/-- The paragraphs of `_format_simple`'s output, as lists of unit texts. -/
def simpleParagraphs (segs : List TextUnit) : List (List String) :=
  finalizeParas (segs.foldl simpleParagraphsStep ([], [], 0))

/-- Rendering of grouped paragraphs in `_format_simple`'s output format. -/
def renderParagraphs (ps : List (List String)) : String :=
  "\n".intercalate (["# Transcript", ""] ++ ps.bind (fun p => [" ".intercalate p, ""]))

lemma formatSimple_fold_eq (segs : List TextUnit) :
    ∀ (ps : List (List String)) (para : List String) (t : ℚ),
      segs.foldl formatSimpleStep
        (["# Transcript", ""] ++ ps.bind (fun p => [" ".intercalate p, ""]), para, t)
      = ((["# Transcript", ""] ++
            (segs.foldl simpleParagraphsStep (ps, para, t)).1.bind
              (fun p => [" ".intercalate p, ""])),
          (segs.foldl simpleParagraphsStep (ps, para, t)).2.1,
          (segs.foldl simpleParagraphsStep (ps, para, t)).2.2) := by
  induction segs with
  | nil => intro ps para t; rfl
  | cons s rest ih =>
      intro ps para t
      simp only [List.foldl_cons, formatSimpleStep, simpleParagraphsStep]
      by_cases h0 : pyStrip s.text = ""
      · rw [if_pos h0, if_pos h0]
        exact ih ps para t
      · rw [if_neg h0, if_neg h0]
        by_cases hbr : para ≠ [] ∧ s.start - t > 2
        · rw [if_pos hbr, if_pos hbr]
          have := ih (ps ++ [para]) [pyStrip s.text] s.stop
          simpa [List.append_bind] using this
        · rw [if_neg hbr, if_neg hbr]
          exact ih ps (para ++ [pyStrip s.text]) s.stop

/-- `_format_simple` is exactly the rendering of its paragraph grouping. -/
lemma formatSimple_eq_render (segs : List TextUnit) :
    formatSimple segs = renderParagraphs (simpleParagraphs segs) := by
  unfold formatSimple renderParagraphs simpleParagraphs finalizeParas
  have h := formatSimple_fold_eq segs [] [] 0
  simp only [List.nil_bind, List.append_nil] at h
  rw [h]
  dsimp only
  by_cases hp : (segs.foldl simpleParagraphsStep ([], [], 0)).2.1 ≠ []
  · rw [if_pos hp, if_pos hp]
    simp [List.append_bind]
  · rw [if_neg hp, if_neg hp]

lemma simpleParagraphs_join_fold (segs : List TextUnit) :
    ∀ (ps : List (List String)) (para : List String) (t : ℚ),
      (finalizeParas (segs.foldl simpleParagraphsStep (ps, para, t))).join
      = ps.join ++ para ++
          ((segs.map (fun s => pyStrip s.text)).filter (fun t => t ≠ "")) := by
  induction segs with
  | nil =>
      intro ps para t
      simp only [List.foldl_nil, finalizeParas]
      by_cases hp : para ≠ []
      · rw [if_pos hp]; simp
      · rw [if_neg hp]
        push_neg at hp
        simp [hp]
  | cons s rest ih =>
      intro ps para t
      simp only [List.foldl_cons, simpleParagraphsStep, List.map_cons, List.filter_cons]
      by_cases h0 : pyStrip s.text = ""
      · rw [if_pos h0]
        simp only [h0]
        rw [ih ps para t]
        simp
      · rw [if_neg h0]
        have hdec : (decide (¬pyStrip s.text = "")) = true := by simp [h0]
        by_cases hbr : para ≠ [] ∧ s.start - t > 2
        · rw [if_pos hbr, ih (ps ++ [para]) [pyStrip s.text] s.stop]
          simp [hdec, h0]
        · rw [if_neg hbr, ih ps (para ++ [pyStrip s.text]) s.stop]
          simp [hdec, h0]

/-- **C9.** `_format_simple` loses no text: the rendered document is exactly
the rendering of its paragraph grouping, and flattening that grouping gives
back precisely the trimmed non-empty unit texts in their original order. -/
theorem claim_C9_no_text_lost (segs : List TextUnit) :
    formatSimple segs = renderParagraphs (simpleParagraphs segs) ∧
    (simpleParagraphs segs).join
      = (segs.map (fun s => pyStrip s.text)).filter (fun t => t ≠ "") := by
  refine ⟨formatSimple_eq_render segs, ?_⟩
  have h := simpleParagraphs_join_fold segs [] [] 0
  simpa [simpleParagraphs] using h

/-- The spec's non-diarized break policy, stated on its own words for
comparison: accumulate unit texts into a buffer and start a new paragraph
exactly when the buffer is non-empty and the gap `start − previous end`
strictly exceeds the pause threshold `τ`. -/
def pauseSplit (τ : ℚ) : List TextUnit → List String → ℚ → List (List String)
  | [], buf, _ => if buf ≠ [] then [buf] else []
  | u :: rest, buf, lastEnd =>
      if buf ≠ [] ∧ u.start - lastEnd > τ then
        buf :: pauseSplit τ rest [pyStrip u.text] u.stop
      else
        pauseSplit τ rest (buf ++ [pyStrip u.text]) u.stop

/-- Pause-threshold grouping of a whole transcript. -/
def pauseParagraphs (τ : ℚ) (units : List TextUnit) : List (List String) :=
  pauseSplit τ units [] 0

lemma simpleParagraphs_fold_eq_pauseSplit (units : List TextUnit) :
    ∀ (ps : List (List String)) (buf : List String) (t : ℚ),
      (∀ u ∈ units, pyStrip u.text ≠ "") →
      finalizeParas (units.foldl simpleParagraphsStep (ps, buf, t))
        = ps ++ pauseSplit 2 units buf t := by
  induction units with
  | nil =>
      intro ps buf t _
      simp only [List.foldl_nil, finalizeParas, pauseSplit]
      by_cases hb : buf ≠ []
      · rw [if_pos hb, if_pos hb]
      · rw [if_neg hb, if_neg hb]
        simp
  | cons u rest ih =>
      intro ps buf t h
      have h0 := h u (List.mem_cons_self u rest)
      simp only [List.foldl_cons, simpleParagraphsStep, pauseSplit]
      rw [if_neg h0]
      by_cases hbr : buf ≠ [] ∧ u.start - t > 2
      · rw [if_pos hbr, if_pos hbr,
          ih (ps ++ [buf]) [pyStrip u.text] u.stop
            (fun v hv => h v (List.mem_cons_of_mem u hv))]
        simp
      · rw [if_neg hbr, if_neg hbr]
        exact ih ps (buf ++ [pyStrip u.text]) u.stop
          (fun v hv => h v (List.mem_cons_of_mem u hv))

/-- **C8.** For well-formed transcripts (every unit text non-empty after
stripping, as the data model guarantees), `_format_simple` starts a new
paragraph exactly when the buffer is non-empty and the gap between the current
unit's start and the previous unit's end strictly exceeds the 2.0-second pause
threshold; on the spec's example transcript the output has exactly the two
paragraphs "Hello world" and "Bye". -/
theorem claim_C8_pause_break (units : List TextUnit)
    (h : ∀ u ∈ units, pyStrip u.text ≠ "") :
    simpleParagraphs units = pauseParagraphs 2 units ∧
    formatSimple [⟨0, 1, "Hello"⟩, ⟨11 / 10, 2, "world"⟩, ⟨5, 6, "Bye"⟩]
      = "# Transcript\n\nHello world\n\nBye\n" := by
  constructor
  · have := simpleParagraphs_fold_eq_pauseSplit units [] [] 0 h
    simpa [simpleParagraphs, pauseParagraphs] using this
  · have h1 : pyStrip "Hello" = "Hello" := by decide
    have h2 : pyStrip "world" = "world" := by decide
    have h3 : pyStrip "Bye" = "Bye" := by decide
    simp only [formatSimple, List.foldl_cons, List.foldl_nil, formatSimpleStep,
      h1, h2, h3]
    simp
    norm_num
    rfl

theorem claim_C8_witness :
    simpleParagraphs [⟨0, 1, "Hello"⟩, ⟨11 / 10, 2, "world"⟩, ⟨5, 6, "Bye"⟩]
      = pauseParagraphs 2 [⟨0, 1, "Hello"⟩, ⟨11 / 10, 2, "world"⟩, ⟨5, 6, "Bye"⟩] ∧
    formatSimple [⟨0, 1, "Hello"⟩, ⟨11 / 10, 2, "world"⟩, ⟨5, 6, "Bye"⟩]
      = "# Transcript\n\nHello world\n\nBye\n" :=
  claim_C8_pause_break _ (by decide)

/-- The number of sentence-terminal punctuation marks (`.`, `?`, `!`) in a
paragraph buffer. -/
def terminalCount (texts : List String) : ℕ :=
  (texts.map (fun t => (t.data.filter (fun c => c = '.' || c = '?' || c = '!')).length)).sum

/-- **C3 counterexample.** Six consecutive sentences with no pause stay in one
single paragraph carrying six sentence-terminal marks: `_format_simple` never
forces a break on the punctuation count. -/
theorem claim_C3_counterexample :
    simpleParagraphs [⟨0, 1, "a."⟩, ⟨1, 2, "a."⟩, ⟨2, 3, "a."⟩,
        ⟨3, 4, "a."⟩, ⟨4, 5, "a."⟩, ⟨5, 6, "a."⟩]
      = [["a.", "a.", "a.", "a.", "a.", "a."]] ∧
    terminalCount ["a.", "a.", "a.", "a.", "a.", "a."] = 6 := by
  constructor
  · have h1 : pyStrip "a." = "a." := by decide
    simp only [simpleParagraphs, List.foldl_cons, List.foldl_nil,
      simpleParagraphsStep, finalizeParas, h1]
    simp
    norm_num
    simp
  · decide

lemma no_break_fold (units : List TextUnit) :
    ∀ (ps : List (List String)) (buf : List String) (t : ℚ),
      (∀ u ∈ units, pyStrip u.text ≠ "") →
      buf ≠ [] →
      (∀ u ∈ units.head?, u.start - t ≤ 2) →
      List.Chain' (fun a b => b.start - a.stop ≤ 2) units →
      finalizeParas (units.foldl simpleParagraphsStep (ps, buf, t))
        = ps ++ [buf ++ units.map (fun u => pyStrip u.text)] := by
  induction units with
  | nil =>
      intro ps buf t _ hb _ _
      simp only [List.foldl_nil, finalizeParas]
      rw [if_pos hb]
      simp
  | cons u rest ih =>
      intro ps buf t h hb hhead hchain
      have h0 := h u (List.mem_cons_self u rest)
      simp only [List.foldl_cons, simpleParagraphsStep]
      rw [if_neg h0]
      have hgap : ¬(u.start - t > 2) :=
        not_lt.mpr (hhead u (by simp))
      rw [if_neg (fun hc => hgap hc.2)]
      obtain ⟨hhead', hchain'⟩ := List.chain'_cons'.mp hchain
      rw [ih ps (buf ++ [pyStrip u.text]) u.stop
        (fun v hv => h v (List.mem_cons_of_mem u hv))
        (by simp) hhead' hchain']
      simp

/-- **C3 amended.** `_format_simple` applies no sentence-count cap at all:
as long as no pause between consecutive units exceeds the 2.0-second
threshold, all unit texts stay in one single paragraph, however many
sentence-terminal punctuation marks accumulate. -/
theorem claim_C3_amended_no_sentence_cap (units : List TextUnit)
    (hne : units ≠ [])
    (h : ∀ u ∈ units, pyStrip u.text ≠ "")
    (hchain : List.Chain' (fun a b => b.start - a.stop ≤ 2) units) :
    simpleParagraphs units = [units.map (fun u => pyStrip u.text)] := by
  cases units with
  | nil => exact absurd rfl hne
  | cons u rest =>
      have h0 := h u (List.mem_cons_self u rest)
      simp only [simpleParagraphs, List.foldl_cons, simpleParagraphsStep]
      rw [if_neg h0, if_neg (by simp)]
      obtain ⟨hhead', hchain'⟩ := List.chain'_cons'.mp hchain
      simp only [List.nil_append]
      rw [no_break_fold rest [] [pyStrip u.text] u.stop
        (fun v hv => h v (List.mem_cons_of_mem u hv))
        (by simp) hhead' hchain']
      simp

theorem claim_C3_amended_witness :
    simpleParagraphs [⟨0, 1, "a."⟩, ⟨1, 2, "a."⟩, ⟨2, 3, "a."⟩,
        ⟨3, 4, "a."⟩, ⟨4, 5, "a."⟩, ⟨5, 6, "a."⟩]
      = [["a.", "a.", "a.", "a.", "a.", "a."]] := by
  have h := claim_C3_amended_no_sentence_cap
    [⟨0, 1, "a."⟩, ⟨1, 2, "a."⟩, ⟨2, 3, "a."⟩, ⟨3, 4, "a."⟩, ⟨4, 5, "a."⟩, ⟨5, 6, "a."⟩]
    (by simp) (by decide)
    (by simp only [List.chain'_cons, List.chain'_singleton]; norm_num)
  simpa using h

/-- The word-grouping loop of `_format_diarized`.  The Python state
`cur_speaker, cur_words` starts as `None, []`; since resolved speakers are
strings, the first word always differs from `None` and starts a fresh buffer
without flushing (the flush is guarded by `if cur_words:`), and afterwards
`cur_words` is never empty again.  The state is therefore encoded as
`Option (String × List String)`: `none` for the initial `None, []` pair,
`some (spk, ws)` (with `ws` non-empty) from the first word on. -/
def groupWordsLoop (timeline : List SpeakerSegment) :
    List Word → Option (String × List String) → List Passage
  | [], none => []
  | [], some (spk, ws) => [⟨spk, " ".intercalate ws⟩]
  | w :: rest, none =>
      groupWordsLoop timeline rest (some (findSpeaker timeline w.start w.stop, [w.word]))
  | w :: rest, some (spk, ws) =>
      if findSpeaker timeline w.start w.stop = spk then
        groupWordsLoop timeline rest (some (spk, ws ++ [w.word]))
      else
        ⟨spk, " ".intercalate ws⟩ ::
          groupWordsLoop timeline rest
            (some (findSpeaker timeline w.start w.stop, [w.word]))

/-- The passages built by the word-level path of `_format_diarized`. -/
def groupWords (timeline : List SpeakerSegment) (words : List Word) : List Passage :=
  groupWordsLoop timeline words none

/-- One step of the speaker-naming loop of `_render_passages`: a raw speaker
not yet in the map and different from `"Unknown"` receives `"Speaker N"` and
the counter advances. -/
def speakerMapStep (acc : List (String × String) × ℕ) (p : Passage) :
    List (String × String) × ℕ :=
  if acc.1.lookup p.speaker = none ∧ p.speaker ≠ "Unknown" then
    (acc.1 ++ [(p.speaker, "Speaker " ++ toString acc.2)], acc.2 + 1)
  else acc

/-- The `speaker_map` and final counter built by `_render_passages`
(insertion-ordered association list, counter starting at 1). -/
def buildSpeakerMap (passages : List Passage) : List (String × String) × ℕ :=
  passages.foldl speakerMapStep ([], 1)

/-- One rendered block of `_render_passages`: the bold label followed by the
passage text, where the label is `speaker_map.get` of the raw speaker with the
raw speaker itself as the default. -/
def passageLine (m : List (String × String)) (p : Passage) : String :=
  "**" ++ ((m.lookup p.speaker).getD p.speaker) ++ ":** " ++ p.text

/-- `_render_passages`: heading, then each passage's labeled block followed by
a blank line. -/
def renderPassages (passages : List Passage) : String :=
  "\n".intercalate (["# Transcript", ""] ++
    passages.bind (fun p => [passageLine (buildSpeakerMap passages).1 p, ""]))

/-- One iteration of the segment loop of `_diarize_segment_level`: empty
trimmed texts are skipped, the segment midpoint is resolved, and the segment
either merges into the last passage (same speaker) or opens a new one. -/
def diarizeSegStep (timeline : List SpeakerSegment) (passages : List Passage)
    (seg : TextUnit) : List Passage :=
  if pyStrip seg.text = "" then passages
  else
    match passages.getLast? with
    | some last =>
        if last.speaker = segSpeaker timeline ((seg.start + seg.stop) / 2) then
          passages.dropLast ++ [⟨last.speaker, last.text ++ " " ++ pyStrip seg.text⟩]
        else
          passages ++ [⟨segSpeaker timeline ((seg.start + seg.stop) / 2), pyStrip seg.text⟩]
    | none =>
        passages ++ [⟨segSpeaker timeline ((seg.start + seg.stop) / 2), pyStrip seg.text⟩]

/-- The passages built by `_diarize_segment_level`. -/
def diarizeSegPassages (timeline : List SpeakerSegment) (segs : List TextUnit) :
    List Passage :=
  segs.foldl (diarizeSegStep timeline) []

/-- `_diarize_segment_level(result, speaker_segments)`. -/
def diarizeSegmentLevel (segs : List TextUnit) (timeline : List SpeakerSegment) :
    String :=
  renderPassages (diarizeSegPassages timeline segs)

/-- `_format_diarized` after diarization and word collection: segment-level
fallback when no word has timestamps, word-level grouping otherwise. -/
def formatDiarized (timeline : List SpeakerSegment) (words : List Word)
    (segs : List TextUnit) : String :=
  if words = [] then diarizeSegmentLevel segs timeline
  else renderPassages (groupWords timeline words)

/-- From a started state, the word grouping emits a first passage carrying the
current speaker, and adjacent emitted passages always differ in speaker. -/
lemma groupWordsLoop_some_chain (tl : List SpeakerSegment) :
    ∀ (words : List Word) (spk : String) (ws : List String),
      ∃ t rest, groupWordsLoop tl words (some (spk, ws)) = ⟨spk, t⟩ :: rest ∧
        List.Chain' (fun p q : Passage => p.speaker ≠ q.speaker) (⟨spk, t⟩ :: rest)
  | [], spk, ws => ⟨" ".intercalate ws, [], rfl, List.chain'_singleton _⟩
  | w :: rest, spk, ws => by
      simp only [groupWordsLoop]
      by_cases h : findSpeaker tl w.start w.stop = spk
      · rw [if_pos h]
        exact groupWordsLoop_some_chain tl rest spk (ws ++ [w.word])
      · rw [if_neg h]
        obtain ⟨t', rest', heq, hchain⟩ :=
          groupWordsLoop_some_chain tl rest (findSpeaker tl w.start w.stop) [w.word]
        refine ⟨" ".intercalate ws, _, rfl, ?_⟩
        rw [heq]
        exact List.chain'_cons.mpr ⟨fun hc => h hc.symm, hchain⟩

/-- One `_diarize_segment_level` step preserves the adjacent-distinct-speaker
invariant. -/
lemma diarizeSegStep_chain (tl : List SpeakerSegment) (seg : TextUnit)
    (passages : List Passage)
    (h : List.Chain' (fun p q : Passage => p.speaker ≠ q.speaker) passages) :
    List.Chain' (fun p q : Passage => p.speaker ≠ q.speaker)
      (diarizeSegStep tl passages seg) := by
  unfold diarizeSegStep
  by_cases h0 : pyStrip seg.text = ""
  · rw [if_pos h0]; exact h
  · rw [if_neg h0]
    cases hl : passages.getLast? with
    | none =>
        have : passages = [] := List.getLast?_eq_none_iff.mp hl
        subst this
        exact List.chain'_singleton _
    | some last =>
        dsimp only
        by_cases hsp : last.speaker = segSpeaker tl ((seg.start + seg.stop) / 2)
        · rw [if_pos hsp]
          have hdecomp : passages.dropLast ++ [last] = passages :=
            List.dropLast_append_getLast? last hl
          rw [← hdecomp] at h
          obtain ⟨h1, -, h3⟩ := List.chain'_append.mp h
          refine List.chain'_append.mpr ⟨h1, List.chain'_singleton _, ?_⟩
          intro x hx y hy
          simp only [List.head?_cons, Option.mem_def, Option.some.injEq] at hy
          subst hy
          exact h3 x hx last (by simp)
        · rw [if_neg hsp]
          refine List.chain'_append.mpr ⟨h, List.chain'_singleton _, ?_⟩
          intro x hx y hy
          simp only [List.head?_cons, Option.mem_def, Option.some.injEq] at hy
          subst hy
          rw [hl] at hx
          simp only [Option.mem_def, Option.some.injEq] at hx
          subst hx
          exact hsp

lemma diarizeSegPassages_fold_chain (tl : List SpeakerSegment) :
    ∀ (segs : List TextUnit) (init : List Passage),
      List.Chain' (fun p q : Passage => p.speaker ≠ q.speaker) init →
      List.Chain' (fun p q : Passage => p.speaker ≠ q.speaker)
        (segs.foldl (diarizeSegStep tl) init)
  | [], _, h => h
  | seg :: rest, init, h =>
      diarizeSegPassages_fold_chain tl rest (diarizeSegStep tl init seg)
        (diarizeSegStep_chain tl seg init h)

/-- **C4.** In both passage builders — word-level grouping in
`_format_diarized` and segment-level merging in `_diarize_segment_level` —
no two adjacent passages of the final sequence share the same speaker. -/
theorem claim_C4_adjacent_speakers_distinct (tl : List SpeakerSegment)
    (words : List Word) (segs : List TextUnit) :
    List.Chain' (fun p q : Passage => p.speaker ≠ q.speaker) (groupWords tl words) ∧
    List.Chain' (fun p q : Passage => p.speaker ≠ q.speaker)
      (diarizeSegPassages tl segs) := by
  constructor
  · cases words with
    | nil => exact trivial
    | cons w rest =>
        show List.Chain' _ (groupWordsLoop tl rest
          (some (findSpeaker tl w.start w.stop, [w.word])))
        obtain ⟨t, rest', heq, hchain⟩ :=
          groupWordsLoop_some_chain tl rest (findSpeaker tl w.start w.stop) [w.word]
        rw [heq]
        exact hchain
  · exact diarizeSegPassages_fold_chain tl segs [] trivial

/-- The association list mapping each element of `seen` to its position-based
label, numbering from `k` upward in list order. -/
def mkSpeakerMapFrom (k : ℕ) (seen : List String) : List (String × String) :=
  List.zipWith (fun s n => (s, "Speaker " ++ toString n)) seen
    (List.range' k seen.length)

/-- First-seen-order accumulation of the distinct raw speaker identifiers
other than the `"Unknown"` sentinel. -/
def seenFold (acc : List String) (speakers : List String) : List String :=
  speakers.foldl (fun a s => if s ∉ a ∧ s ≠ "Unknown" then a ++ [s] else a) acc

lemma mkSpeakerMapFrom_cons (k : ℕ) (s : String) (rest : List String) :
    mkSpeakerMapFrom k (s :: rest)
      = (s, "Speaker " ++ toString k) :: mkSpeakerMapFrom (k + 1) rest := by
  simp [mkSpeakerMapFrom, List.range'_succ]

lemma mkSpeakerMapFrom_keys (seen : List String) :
    ∀ k : ℕ, (mkSpeakerMapFrom k seen).map Prod.fst = seen := by
  induction seen with
  | nil => intro k; rfl
  | cons s rest ih =>
      intro k
      rw [mkSpeakerMapFrom_cons]
      simp [ih (k + 1)]

lemma mkSpeakerMapFrom_lookup_eq_none (seen : List String) :
    ∀ (k : ℕ) (s : String),
      (mkSpeakerMapFrom k seen).lookup s = none ↔ s ∉ seen := by
  induction seen with
  | nil => intro k s; simp [mkSpeakerMapFrom]
  | cons a rest ih =>
      intro k s
      rw [mkSpeakerMapFrom_cons]
      by_cases hs : s = a
      · subst hs
        simp [List.lookup]
      · simp [List.lookup, beq_false_of_ne hs, ih (k + 1) s, hs]

lemma mkSpeakerMapFrom_concat (seen : List String) :
    ∀ (k : ℕ) (s : String),
      mkSpeakerMapFrom k (seen ++ [s])
        = mkSpeakerMapFrom k seen ++ [(s, "Speaker " ++ toString (k + seen.length))] := by
  induction seen with
  | nil => intro k s; simp [mkSpeakerMapFrom]
  | cons a rest ih =>
      intro k s
      rw [List.cons_append, mkSpeakerMapFrom_cons, ih (k + 1) s, mkSpeakerMapFrom_cons]
      simp only [List.cons_append, List.length_cons]
      rw [show k + 1 + rest.length = k + (rest.length + 1) from by omega]

lemma mkSpeakerMapFrom_lookup_get (seen : List String) :
    ∀ (k n : ℕ) (hn : n < seen.length), seen.Nodup →
      (mkSpeakerMapFrom k seen).lookup (seen.get ⟨n, hn⟩)
        = some ("Speaker " ++ toString (k + n)) := by
  induction seen with
  | nil => intro k n hn; simp at hn
  | cons a rest ih =>
      intro k n hn hnd
      rw [mkSpeakerMapFrom_cons]
      cases n with
      | zero => simp [List.lookup]
      | succ m =>
          have hmem : rest.get ⟨m, Nat.lt_of_succ_lt_succ hn⟩ ∈ rest :=
            rest.get_mem _ _
          have hne : (rest.get ⟨m, Nat.lt_of_succ_lt_succ hn⟩) ≠ a := by
            intro hc
            exact (List.nodup_cons.mp hnd).1 (hc ▸ hmem)
          have : ((a :: rest).get ⟨m + 1, hn⟩) = rest.get ⟨m, Nat.lt_of_succ_lt_succ hn⟩ := rfl
          rw [this]
          simp only [List.lookup, beq_false_of_ne hne]
          rw [ih (k + 1) m (Nat.lt_of_succ_lt_succ hn) (List.nodup_cons.mp hnd).2,
            show k + 1 + m = k + (m + 1) from by omega]

lemma seenFold_nodup (speakers : List String) :
    ∀ acc : List String, acc.Nodup → (seenFold acc speakers).Nodup := by
  induction speakers with
  | nil => intro acc h; exact h
  | cons s rest ih =>
      intro acc h
      simp only [seenFold, List.foldl_cons]
      by_cases hc : s ∉ acc ∧ s ≠ "Unknown"
      · rw [if_pos hc]
        exact ih _ (by simp [List.nodup_append, h, hc.1])
      · rw [if_neg hc]
        exact ih _ h

lemma seenFold_not_unknown (speakers : List String) :
    ∀ acc : List String, "Unknown" ∉ acc → "Unknown" ∉ seenFold acc speakers := by
  induction speakers with
  | nil => intro acc h; exact h
  | cons s rest ih =>
      intro acc h
      simp only [seenFold, List.foldl_cons]
      by_cases hc : s ∉ acc ∧ s ≠ "Unknown"
      · rw [if_pos hc]
        refine ih _ ?_
        simp only [List.mem_append, List.mem_singleton]
        rintro (hu | hu)
        · exact h hu
        · exact hc.2 hu.symm
      · rw [if_neg hc]
        exact ih _ h

/-- The `_render_passages` naming fold, tracked against first-seen order: the
map is always the position map of the distinct non-Unknown speakers seen so
far, and the counter is always one more than their number. -/
lemma buildSpeakerMap_fold (passages : List Passage) :
    ∀ seen : List String,
      passages.foldl speakerMapStep (mkSpeakerMapFrom 1 seen, seen.length + 1)
        = (mkSpeakerMapFrom 1 (seenFold seen (passages.map Passage.speaker)),
            (seenFold seen (passages.map Passage.speaker)).length + 1) := by
  induction passages with
  | nil => intro seen; rfl
  | cons p rest ih =>
      intro seen
      simp only [List.foldl_cons, speakerMapStep, List.map_cons, seenFold]
      by_cases hc : p.speaker ∉ seen ∧ p.speaker ≠ "Unknown"
      · rw [if_pos (by
            exact ⟨(mkSpeakerMapFrom_lookup_eq_none seen 1 p.speaker).mpr hc.1, hc.2⟩),
          if_pos hc]
        have hconcat := mkSpeakerMapFrom_concat seen 1 p.speaker
        have hlen : (seen ++ [p.speaker]).length = seen.length + 1 := by simp
        calc rest.foldl speakerMapStep
              (mkSpeakerMapFrom 1 seen ++ [(p.speaker, "Speaker " ++ toString (seen.length + 1))],
                seen.length + 1 + 1)
            = rest.foldl speakerMapStep
                (mkSpeakerMapFrom 1 (seen ++ [p.speaker]), (seen ++ [p.speaker]).length + 1) := by
              rw [hconcat, hlen, show (1 : ℕ) + seen.length = seen.length + 1 from by omega]
          _ = _ := by
              rw [ih (seen ++ [p.speaker])]
              rfl
      · rw [if_neg (by
            intro hcon
            exact hc ⟨(mkSpeakerMapFrom_lookup_eq_none seen 1 p.speaker).mp hcon.1, hcon.2⟩),
          if_neg hc]
        exact ih seen

/-- The map `_render_passages` builds is the position map of the distinct
non-Unknown speakers in first-seen order. -/
lemma buildSpeakerMap_eq (passages : List Passage) :
    buildSpeakerMap passages
      = (mkSpeakerMapFrom 1 (seenFold [] (passages.map Passage.speaker)),
          (seenFold [] (passages.map Passage.speaker)).length + 1) :=
  buildSpeakerMap_fold passages []

/-- **C5.** The label namer of `_render_passages` works in first-seen order:
its keys are exactly the distinct non-Unknown raw speakers in order of first
appearance, the Nth such key (0-based `n`) maps to `"Speaker (n+1)"`, the
Unknown sentinel is never inserted, and the final counter is the number of
distinct named speakers plus one. -/
theorem claim_C5_label_namer (passages : List Passage) :
    ((buildSpeakerMap passages).1.map Prod.fst
        = seenFold [] (passages.map Passage.speaker)) ∧
    (∀ (n : ℕ) (hn : n < (seenFold [] (passages.map Passage.speaker)).length),
      (buildSpeakerMap passages).1.lookup
          ((seenFold [] (passages.map Passage.speaker)).get ⟨n, hn⟩)
        = some ("Speaker " ++ toString (n + 1))) ∧
    "Unknown" ∉ (buildSpeakerMap passages).1.map Prod.fst ∧
    (buildSpeakerMap passages).2
      = (seenFold [] (passages.map Passage.speaker)).length + 1 := by
  rw [buildSpeakerMap_eq]
  refine ⟨mkSpeakerMapFrom_keys _ 1, ?_, ?_, rfl⟩
  · intro n hn
    rw [mkSpeakerMapFrom_lookup_get _ 1 n hn
      (seenFold_nodup _ [] List.nodup_nil), Nat.add_comm 1 n]
  · rw [mkSpeakerMapFrom_keys _ 1]
    exact seenFold_not_unknown _ [] (by simp)

theorem claim_C5_witness :
    (buildSpeakerMap [⟨"S1", "hi"⟩, ⟨"Unknown", "x"⟩, ⟨"S2", "yo"⟩, ⟨"S1", "back"⟩]).1.lookup "S2"
      = some "Speaker 2" := by
  have h := (claim_C5_label_namer
    [⟨"S1", "hi"⟩, ⟨"Unknown", "x"⟩, ⟨"S2", "yo"⟩, ⟨"S1", "back"⟩]).2.1 1 (by decide)
  simpa using h

/-- **C10.** A raw speaker identifier literally equal to `"Unknown"` is
absorbed by the sentinel: it is never given a `"Speaker N"` name (it is never
a key of the label map), and its passages render with the literal label
`"Unknown"` in `_render_passages`. -/
theorem claim_C10_literal_unknown_collides (passages : List Passage)
    (p : Passage) (_hp : p ∈ passages) (hu : p.speaker = "Unknown") :
    "Unknown" ∉ (buildSpeakerMap passages).1.map Prod.fst ∧
    passageLine (buildSpeakerMap passages).1 p = "**Unknown:** " ++ p.text ∧
    renderPassages passages = "\n".intercalate (["# Transcript", ""] ++
      passages.bind (fun q => [passageLine (buildSpeakerMap passages).1 q, ""])) := by
  have hkeys : (buildSpeakerMap passages).1.map Prod.fst
      = seenFold [] (passages.map Passage.speaker) := by
    rw [buildSpeakerMap_eq]
    exact mkSpeakerMapFrom_keys _ 1
  have hnotin : "Unknown" ∉ (buildSpeakerMap passages).1.map Prod.fst := by
    rw [hkeys]
    exact seenFold_not_unknown _ [] (by simp)
  refine ⟨hnotin, ?_, rfl⟩
  have hlook : (buildSpeakerMap passages).1.lookup p.speaker = none := by
    rw [buildSpeakerMap_eq, hu]
    exact (mkSpeakerMapFrom_lookup_eq_none _ 1 "Unknown").mpr
      (seenFold_not_unknown _ [] (by simp))
  unfold passageLine
  rw [hlook, Option.getD_none, hu]
  rfl

theorem claim_C10_witness :
    "Unknown" ∉ (buildSpeakerMap [⟨"Unknown", "Hi"⟩]).1.map Prod.fst ∧
    passageLine (buildSpeakerMap [⟨"Unknown", "Hi"⟩]).1 ⟨"Unknown", "Hi"⟩
      = "**Unknown:** " ++ "Hi" ∧
    renderPassages [⟨"Unknown", "Hi"⟩] = "\n".intercalate (["# Transcript", ""] ++
      [⟨"Unknown", "Hi"⟩].bind
        (fun q => [passageLine (buildSpeakerMap [⟨"Unknown", "Hi"⟩]).1 q, ""])) :=
  claim_C10_literal_unknown_collides [⟨"Unknown", "Hi"⟩] ⟨"Unknown", "Hi"⟩
    (List.mem_singleton.mpr rfl) rfl

/-- When every word resolves to the sentinel, the word grouping accumulates
everything into one single `"Unknown"` passage. -/
lemma groupWordsLoop_all_unknown (tl : List SpeakerSegment) :
    ∀ (words : List Word) (ws : List String),
      (∀ w ∈ words, findSpeaker tl w.start w.stop = "Unknown") →
      groupWordsLoop tl words (some ("Unknown", ws))
        = [⟨"Unknown", " ".intercalate (ws ++ words.map Word.word)⟩]
  | [], ws, _ => by simp [groupWordsLoop]
  | w :: rest, ws, hall => by
      simp only [groupWordsLoop]
      rw [if_pos (hall w (List.mem_cons_self w rest)),
        groupWordsLoop_all_unknown tl rest (ws ++ [w.word])
          (fun v hv => hall v (List.mem_cons_of_mem w hv))]
      simp

/-- **C2 counterexample.** With an empty diarization timeline (so every word
resolves to Unknown), the diarized path renders one `**Unknown:**`-labeled
passage; it does not fall back to the non-diarized document, which differs. -/
theorem claim_C2_counterexample :
    formatDiarized [] [⟨0, 1, "Hi"⟩] [⟨0, 1, "Hi"⟩]
      = "# Transcript\n\n**Unknown:** Hi\n" ∧
    formatSimple [⟨0, 1, "Hi"⟩] = "# Transcript\n\nHi\n" ∧
    formatDiarized [] [⟨0, 1, "Hi"⟩] [⟨0, 1, "Hi"⟩] ≠ formatSimple [⟨0, 1, "Hi"⟩] := by
  refine ⟨by rfl, by rfl, by decide⟩

/-- **C2 amended.** When every word resolves to the Unknown sentinel (in
particular over an empty timeline), `_format_diarized` does *not* fall back to
the non-diarized path: it builds exactly one passage carrying the Unknown
sentinel and renders it through `_render_passages`. -/
theorem claim_C2_amended_no_fallback (tl : List SpeakerSegment)
    (words : List Word) (segs : List TextUnit) (hne : words ≠ [])
    (hall : ∀ w ∈ words, findSpeaker tl w.start w.stop = "Unknown") :
    groupWords tl words
      = [⟨"Unknown", " ".intercalate (words.map Word.word)⟩] ∧
    formatDiarized tl words segs
      = renderPassages [⟨"Unknown", " ".intercalate (words.map Word.word)⟩] := by
  have hgroup : groupWords tl words
      = [⟨"Unknown", " ".intercalate (words.map Word.word)⟩] := by
    cases words with
    | nil => exact absurd rfl hne
    | cons w rest =>
        show groupWordsLoop tl rest
            (some (findSpeaker tl w.start w.stop, [w.word])) = _
        rw [hall w (List.mem_cons_self w rest),
          groupWordsLoop_all_unknown tl rest [w.word]
            (fun v hv => hall v (List.mem_cons_of_mem w hv))]
        rfl
  refine ⟨hgroup, ?_⟩
  unfold formatDiarized
  rw [if_neg hne, hgroup]

theorem claim_C2_amended_witness :
    groupWords [] [⟨0, 1, "Hi"⟩]
      = [⟨"Unknown", " ".intercalate (([⟨0, 1, "Hi"⟩] : List Word).map Word.word)⟩] ∧
    formatDiarized [] [⟨0, 1, "Hi"⟩] []
      = renderPassages
          [⟨"Unknown", " ".intercalate (([⟨0, 1, "Hi"⟩] : List Word).map Word.word)⟩] :=
  claim_C2_amended_no_fallback [] [⟨0, 1, "Hi"⟩] [] (by simp) (by
    intro w hw
    rw [List.mem_singleton.mp hw]
    rfl)

end Transcribe
